import Mathlib

/-!
Verification of the `fdup` duplicate-file finder (`src/fdup.rs`).

The development shallowly embeds the core pipeline:

* `sha512` — the SHA-512 digest (FIPS 180-4) computed by the `sha2` crate,
  implemented here over byte lists (`List Nat`, each entry a byte value);
* `get_sha512_hash` — the streaming read loop of `fdup::get_sha512_hash`,
  which feeds the file to the hasher through a fixed 4096-byte buffer;
* `mmInsert`/`mmAppend`/`drain_into`/`union_multimap` — the multimap
  operations of `fdup::union_multimap`, with `HashMap<Key, Vec<Item>>`
  modelled as an association list with pairwise-distinct keys;
* `fold_multimap`/`partition_by_key` — the group-by-key engine
  `fdup::partition_by_key`;
* `raw_groups`/`group_duplicate_files` — the two-stage duplicate pipeline
  `fdup::group_duplicate_files`, with the filesystem modelled as a content
  function `fs : String → List Nat` and the traversal's output as the list
  of regular-file paths it enumerates.
-/

namespace Fdup

/-! ### SHA-512 (FIPS 180-4), the digest computed by the `sha2` crate -/

/-- Truncated 64-bit addition. -/
def wadd (x y : Nat) : Nat := (x + y) % 2 ^ 64

/-- 64-bit right rotation. -/
def rotr (x n : Nat) : Nat := ((x >>> n) ||| (x <<< (64 - n))) % 2 ^ 64

/-- 64-bit complement. -/
def wnot (x : Nat) : Nat := (2 ^ 64 - 1) ^^^ (x % 2 ^ 64)

/-- `Ch(x, y, z)` of FIPS 180-4. -/
def ch (x y z : Nat) : Nat := (x &&& y) ^^^ (wnot x &&& z)

/-- `Maj(x, y, z)` of FIPS 180-4. -/
def maj (x y z : Nat) : Nat := ((x &&& y) ^^^ (x &&& z)) ^^^ (y &&& z)

/-- `Σ0` of FIPS 180-4. -/
def bigSigma0 (x : Nat) : Nat := (rotr x 28 ^^^ rotr x 34) ^^^ rotr x 39

/-- `Σ1` of FIPS 180-4. -/
def bigSigma1 (x : Nat) : Nat := (rotr x 14 ^^^ rotr x 18) ^^^ rotr x 41

/-- `σ0` of FIPS 180-4. -/
def smallSigma0 (x : Nat) : Nat := (rotr x 1 ^^^ rotr x 8) ^^^ (x >>> 7)

/-- `σ1` of FIPS 180-4. -/
def smallSigma1 (x : Nat) : Nat := (rotr x 19 ^^^ rotr x 61) ^^^ (x >>> 6)

/-- The 80 SHA-512 round constants. -/
def K512 : List Nat :=
  [ 4794697086780616226, 8158064640168781261, 13096744586834688815,
    16840607885511220156, 4131703408338449720, 6480981068601479193,
    10538285296894168987, 12329834152419229976, 15566598209576043074,
    1334009975649890238, 2608012711638119052, 6128411473006802146,
    8268148722764581231, 9286055187155687089, 11230858885718282805,
    13951009754708518548, 16472876342353939154, 17275323862435702243,
    1135362057144423861, 2597628984639134821, 3308224258029322869,
    5365058923640841347, 6679025012923562964, 8573033837759648693,
    10970295158949994411, 12119686244451234320, 12683024718118986047,
    13788192230050041572, 14330467153632333762, 15395433587784984357,
    489312712824947311, 1452737877330783856, 2861767655752347644,
    3322285676063803686, 5560940570517711597, 5996557281743188959,
    7280758554555802590, 8532644243296465576, 9350256976987008742,
    10552545826968843579, 11727347734174303076, 12113106623233404929,
    14000437183269869457, 14369950271660146224, 15101387698204529176,
    15463397548674623760, 17586052441742319658, 1182934255886127544,
    1847814050463011016, 2177327727835720531, 2830643537854262169,
    3796741975233480872, 4115178125766777443, 5681478168544905931,
    6601373596472566643, 7507060721942968483, 8399075790359081724,
    8693463985226723168, 9568029438360202098, 10144078919501101548,
    10430055236837252648, 11840083180663258601, 13761210420658862357,
    14299343276471374635, 14566680578165727644, 15097957966210449927,
    16922976911328602910, 17689382322260857208, 500013540394364858,
    748580250866718886, 1242879168328830382, 1977374033974150939,
    2944078676154940804, 3659926193048069267, 4368137639120453308,
    4836135668995329356, 5532061633213252278, 6448918945643986474,
    6902733635092675308, 7801388544844847127 ]

/-- The eight SHA-512 working registers. -/
structure Regs where
  a : Nat
  b : Nat
  c : Nat
  d : Nat
  e : Nat
  f : Nat
  g : Nat
  h : Nat

/-- The SHA-512 initial hash value. -/
def H512 : Regs :=
  ⟨7640891576956012808, 13503953896175478587,
   4354685564936845355, 11912009170470909681,
   5840696475078001361, 11170449401992604703,
   2270897969802886507, 6620516959819538809⟩

/-- One SHA-512 compression round, consuming a pair of round constant and
message-schedule word. -/
def sha512Round (r : Regs) (kw : Nat × Nat) : Regs :=
  let t1 := wadd (wadd (wadd (wadd r.h (bigSigma1 r.e)) (ch r.e r.f r.g)) kw.1) kw.2
  let t2 := wadd (bigSigma0 r.a) (maj r.a r.b r.c)
  ⟨wadd t1 t2, r.a, r.b, r.c, wadd r.d t1, r.e, r.f, r.g⟩

/-- Big-endian bytes of `v`, `k` bytes wide. -/
def toBytesBE : Nat → Nat → List Nat
  | 0, _ => []
  | k + 1, v => toBytesBE k (v / 256) ++ [v % 256]

/-- Big-endian 64-bit word assembled from a byte list. -/
def bytesToWord (bs : List Nat) : Nat := bs.foldl (fun acc b => acc * 256 + b) 0

/-- Split a list into chunks of `n + 1` elements (the last chunk may be
shorter).  The `fuel` argument makes the recursion structural; it is enough
whenever `fuel ≥ l.length`, since every step consumes at least one element. -/
def chunksOfFuel (n : Nat) : Nat → List α → List (List α)
  | _, [] => []
  | 0, _ :: _ => []
  | fuel + 1, x :: xs => (x :: xs.take n) :: chunksOfFuel n fuel (xs.drop n)

/-- Split a list into chunks of `n + 1` elements (the last chunk may be
shorter). -/
def chunksOf (n : Nat) (l : List α) : List (List α) :=
  chunksOfFuel n l.length l

/-- The 80-word SHA-512 message schedule of one 128-byte block. -/
def msgSchedule (block : List Nat) : List Nat :=
  (List.range 64).foldl
    (fun W t =>
      W ++ [wadd (wadd (smallSigma1 (W.getD (t + 14) 0)) (W.getD (t + 9) 0))
              (wadd (smallSigma0 (W.getD (t + 1) 0)) (W.getD t 0))])
    ((chunksOf 7 block).map bytesToWord)

/-- SHA-512 compression of one 128-byte block into the chaining state. -/
def compressBlock (H : Regs) (block : List Nat) : Regs :=
  let r := (K512.zip (msgSchedule block)).foldl sha512Round H
  ⟨wadd H.a r.a, wadd H.b r.b, wadd H.c r.c, wadd H.d r.d,
   wadd H.e r.e, wadd H.f r.f, wadd H.g r.g, wadd H.h r.h⟩

/-- SHA-512 message padding: a `0x80` byte, zeros to 112 mod 128, and the
message bit length as a 128-bit big-endian integer. -/
def sha512pad (msg : List Nat) : List Nat :=
  msg ++ 0x80 :: List.replicate ((128 - (msg.length + 17) % 128) % 128) 0
      ++ toBytesBE 16 (8 * msg.length)

/-- The SHA-512 digest (64 bytes) of a byte list. -/
def sha512 (msg : List Nat) : List Nat :=
  let fin := ((chunksOf 127 (sha512pad msg))).foldl compressBlock H512
  [fin.a, fin.b, fin.c, fin.d, fin.e, fin.f, fin.g, fin.h].flatMap (toBytesBE 8)

/-! ### `fdup::get_sha512_hash`: the buffered streaming read loop

The Rust function repeatedly calls `file.read(&mut buffer)` on a 4096-byte
buffer, feeds each chunk `buffer[..size]` to the incremental hasher, and
finalizes when `read` returns 0 at end of file.  The hasher state is
modelled by the byte list absorbed so far; finalizing runs `sha512` on it. -/

/-- The read loop: absorb the remaining file contents 4096 bytes at a time;
once the read returns no bytes, finalize the hasher.  The `fuel` argument
makes the recursion structural; it is enough whenever it is at least the
length of the remaining input, since every `read` on a nonempty remainder
returns at least one byte. -/
def hashReadLoop : Nat → List Nat → List Nat → List Nat
  | _, absorbed, [] => sha512 absorbed
  | 0, absorbed, _ :: _ => sha512 absorbed
  | fuel + 1, absorbed, b :: rest =>
      hashReadLoop fuel (absorbed ++ (b :: rest).take 4096) ((b :: rest).drop 4096)

/-- `fdup::get_sha512_hash`, on the byte contents of the file at `path`. -/
def get_sha512_hash (content : List Nat) : List Nat :=
  hashReadLoop content.length [] content

/-! ### The multimap: `HashMap<Key, Vec<Item>>` as an association list

A `HashMap` holds pairwise-distinct keys in an unspecified order; it is
modelled as an association list `List (K × List T)`, the well-formedness
predicate `MMWf` recording key distinctness.  `HashMap::len()` (the number
of distinct keys) is the list length. -/

section Multimap

variable {K : Type _} {T : Type _} [DecidableEq K]

/-- The body of the fold closure in `fdup::partition_by_key`: look the key
up; push the item onto the existing vector, or insert a fresh singleton
vector. -/
def mmInsert : List (K × List T) → K → T → List (K × List T)
  | [], key, item => [(key, [item])]
  | (k, vs) :: rest, key, item =>
      if k = key then (k, vs ++ [item]) :: rest
      else (k, vs) :: mmInsert rest key item

/-- The body of the `drain` loop in `fdup::union_multimap`: append the
drained vector onto the target's vector for that key, or insert it if the
key is absent. -/
def mmAppend : List (K × List T) → K → List T → List (K × List T)
  | [], key, items => [(key, items)]
  | (k, vs) :: rest, key, items =>
      if k = key then (k, vs ++ items) :: rest
      else (k, vs) :: mmAppend rest key items

/-- `drain_into` of `fdup::union_multimap`: move every entry of `source`
into `target`. -/
def drain_into (source target : List (K × List T)) : List (K × List T) :=
  source.foldl (fun tgt kv => mmAppend tgt kv.1 kv.2) target

/-- `fdup::union_multimap`: drain the map with fewer distinct keys into the
one with more. -/
def union_multimap (lhs rhs : List (K × List T)) : List (K × List T) :=
  if lhs.length ≤ rhs.length then drain_into lhs rhs else drain_into rhs lhs

/-- The fold step of `fdup::partition_by_key`, run over the whole item
sequence. -/
def fold_multimap (get_key : T → K) (items : List T) : List (K × List T) :=
  items.foldl (fun acc item => mmInsert acc (get_key item) item) []

/-- `fdup::partition_by_key`: build the key → items multimap, then discard
the keys. -/
def partition_by_key (get_key : T → K) (items : List T) : List (List T) :=
  (fold_multimap get_key items).map Prod.snd

end Multimap

/-! ### The duplicate pipeline `fdup::group_duplicate_files`

Paths (`PathBuf` in the source) are modelled by an arbitrary linearly
ordered type `P` (the `Ord`/`Hash`/`Eq` instances of `PathBuf`); the
filesystem is modelled by a content map `fs : P → List Nat` giving the
bytes of the regular file at each path, and the traversal collaborator's
output by the list of regular-file paths it enumerates (`walkdir` yields
each path at most once). -/

section Pipeline

variable {P : Type _} [LinearOrder P]

/-- `fdup::get_file_size`: the metadata size of a regular file is the byte
length of its contents. -/
def get_file_size (fs : P → List Nat) (p : P) : Nat :=
  (fs p).length

/-- The content key used in the second stage: the SHA-512 digest of the
file at `p`, computed by the streaming read loop. -/
def content_key (fs : P → List Nat) (p : P) : List Nat :=
  get_sha512_hash (fs p)

/-- The two partition stages of `fdup::group_duplicate_files`: group by
size, keep groups with more than one file, subgroup each by SHA-512
checksum, keep subgroups with more than one file, and flatten.  (The
`DirEntry::into_path` conversion is the identity here since entries are
modelled by their paths.) -/
def raw_groups (fs : P → List Nat) (files : List P) : List (List P) :=
  (((partition_by_key (get_file_size fs) files).filter (fun p => 1 < p.length)).map
    (fun g => (partition_by_key (content_key fs) g).filter (fun p => 1 < p.length))).flatten

/-- `fdup::group_duplicate_files`: the two partition stages followed by the
optional per-group sort.  `Vec::sort` is a stable sort; it is modelled by
insertion sort, which agrees with every stable sort. -/
def group_duplicate_files (sort : Bool) (fs : P → List Nat) (files : List P) :
    List (List P) :=
  (raw_groups fs files).map (fun g => if sort then g.insertionSort (· ≤ ·) else g)

end Pipeline

/-! ### Fail-fast error model

In the Rust source every fallible operation is immediately `unwrap`ped:
traversal results in `group_duplicate_files`, the `metadata()` size lookup
in `get_file_size`, and `File::open`/`read` in `get_sha512_hash`.  A panic
aborts the whole run; this is embedded by `Except`, where the first error
aborts the computation and no group output is produced. -/

/-- Sequential effectful map in the `Except` monad: the first error aborts
the whole traversal. -/
def mapME (f : α → Except ε β) : List α → Except ε (List β)
  | [] => .ok []
  | x :: xs =>
      match f x with
      | .error e => .error e
      | .ok y =>
          match mapME f xs with
          | .error e => .error e
          | .ok ys => .ok (y :: ys)

/-- `fdup::partition_by_key` with a fallible key extractor: the keys are
computed by the mapped iterator, and a failing key computation (an
`unwrap`ped I/O error) aborts the whole partition. -/
def partition_by_keyE {K T : Type _} [DecidableEq K] (get_key : T → Except String K)
    (items : List T) : Except String (List (List T)) :=
  match mapME (fun item =>
      match get_key item with
      | .error e => .error e
      | .ok k => .ok (k, item)) items with
  | .error e => .error e
  | .ok keyed =>
      .ok ((keyed.foldl (fun acc ki => mmInsert acc ki.1 ki.2) []).map Prod.snd)

/-- The fallible content key: `File::open`/`read` may fail inside
`get_sha512_hash`; on success the digest of the content is produced. -/
def content_keyE {P : Type _} (readFile : P → Except String (List Nat)) (p : P) :
    Except String (List Nat) :=
  match readFile p with
  | .error e => .error e
  | .ok c => .ok (get_sha512_hash c)

/-- The second stage applied to one size group: partition by the fallible
content key, keep subgroups of more than one file. -/
def hash_stageE {P : Type _} [LinearOrder P] (readFile : P → Except String (List Nat))
    (g : List P) : Except String (List (List P)) :=
  match partition_by_keyE (content_keyE readFile) g with
  | .error e => .error e
  | .ok sub => .ok (sub.filter (fun q => 1 < q.length))

/-- `fdup::group_duplicate_files` with every fallible collaborator made
explicit: `entries` are the traversal results (`walkdir::Result`),
`metadata` is the size lookup of `get_file_size`, and `readFile` is the
open-and-read of `get_sha512_hash`.  Each `unwrap` becomes an `Except`
propagation: any error aborts the run with no groups emitted. -/
def group_duplicate_filesE {P : Type _} [LinearOrder P] (sort : Bool)
    (entries : List (Except String P))
    (metadata : P → Except String Nat)
    (readFile : P → Except String (List Nat)) :
    Except String (List (List P)) :=
  match mapME id entries with
  | .error e => .error e
  | .ok files =>
      match partition_by_keyE metadata files with
      | .error e => .error e
      | .ok sizeGroups =>
          match mapME (hash_stageE readFile) (sizeGroups.filter (fun p => 1 < p.length)) with
          | .error e => .error e
          | .ok hashed =>
              .ok (hashed.flatten.map (fun g => if sort then g.insertionSort (· ≤ ·) else g))

/-! ### Multimap theory -/

section MultimapTheory

variable {K : Type _} {T : Type _} [DecidableEq K]

/-- The keys of a multimap, in storage order. -/
def mmKeys (m : List (K × List T)) : List K := m.map Prod.fst

/-- A `HashMap` model is well-formed when its keys are pairwise distinct. -/
def MMWf (m : List (K × List T)) : Prop := (mmKeys m).Nodup

instance mmwfDecidable (m : List (K × List T)) : Decidable (MMWf m) :=
  inferInstanceAs (Decidable (mmKeys m).Nodup)

/-- All items stored under `key`. -/
def mmGet : List (K × List T) → K → List T
  | [], _ => []
  | (k, vs) :: rest, key => if k = key then vs ++ mmGet rest key else mmGet rest key

theorem mmKeys_nil : mmKeys ([] : List (K × List T)) = [] := rfl

theorem mmKeys_cons (p : K × List T) (rest : List (K × List T)) :
    mmKeys (p :: rest) = p.1 :: mmKeys rest := rfl

theorem mmGet_nil (key : K) : mmGet ([] : List (K × List T)) key = [] := rfl

theorem mmGet_cons (k : K) (vs : List T) (rest : List (K × List T)) (key : K) :
    mmGet ((k, vs) :: rest) key = if k = key then vs ++ mmGet rest key else mmGet rest key := rfl

theorem mmwf_nil : MMWf ([] : List (K × List T)) := List.nodup_nil

theorem mmwf_cons {k : K} {vs : List T} {rest : List (K × List T)}
    (h : MMWf ((k, vs) :: rest)) : k ∉ mmKeys rest ∧ MMWf rest := by
  simpa [MMWf, mmKeys_cons, List.nodup_cons] using h

theorem mmGet_eq_nil_of_not_mem {m : List (K × List T)} {key : K}
    (h : key ∉ mmKeys m) : mmGet m key = [] := by
  induction m with
  | nil => rfl
  | cons p rest ih =>
      obtain ⟨k, vs⟩ := p
      rw [mmKeys_cons, List.mem_cons, not_or] at h
      rw [mmGet_cons, if_neg (fun hk => h.1 hk.symm), ih h.2]

theorem mmKeys_mmAppend (m : List (K × List T)) (key : K) (vs : List T) :
    mmKeys (mmAppend m key vs)
      = if key ∈ mmKeys m then mmKeys m else mmKeys m ++ [key] := by
  induction m with
  | nil => simp [mmAppend, mmKeys]
  | cons p rest ih =>
      obtain ⟨k, vs'⟩ := p
      by_cases hk : k = key
      · subst hk
        simp [mmAppend, mmKeys_cons]
      · rw [show mmAppend ((k, vs') :: rest) key vs
              = (k, vs') :: mmAppend rest key vs by simp [mmAppend, hk]]
        rw [mmKeys_cons, mmKeys_cons, ih]
        by_cases hmem : key ∈ mmKeys rest
        · simp [hmem]
        · simp [hmem, Ne.symm hk]

theorem mmwf_mmAppend {m : List (K × List T)} (h : MMWf m) (key : K) (vs : List T) :
    MMWf (mmAppend m key vs) := by
  unfold MMWf
  rw [mmKeys_mmAppend]
  split
  · exact h
  · next hmem =>
      simp only [List.nodup_append, List.nodup_singleton, true_and]
      exact ⟨h, by simpa [List.disjoint_singleton] using hmem⟩

theorem mmGet_mmAppend {m : List (K × List T)} (h : MMWf m) (key : K) (vs : List T) (q : K) :
    mmGet (mmAppend m key vs) q = if q = key then mmGet m q ++ vs else mmGet m q := by
  induction m with
  | nil =>
      rw [show mmAppend ([] : List (K × List T)) key vs = [(key, vs)] from rfl, mmGet_cons]
      by_cases hq : q = key
      · subst hq; simp [mmGet_nil]
      · rw [if_neg (fun hk : key = q => hq hk.symm), if_neg hq]
  | cons p rest ih =>
      obtain ⟨k, vs'⟩ := p
      obtain ⟨hknot, hrest⟩ := mmwf_cons h
      by_cases hk : k = key
      · subst hk
        rw [show mmAppend ((k, vs') :: rest) k vs = (k, vs' ++ vs) :: rest by simp [mmAppend]]
        by_cases hq : q = k
        · subst hq
          simp [mmGet_cons, mmGet_eq_nil_of_not_mem hknot]
        · simp [mmGet_cons, hq, Ne.symm hq]
      · rw [show mmAppend ((k, vs') :: rest) key vs
              = (k, vs') :: mmAppend rest key vs by simp [mmAppend, hk]]
        by_cases hq : q = key
        · subst hq
          simp [mmGet_cons, hk, ih hrest]
        · simp [mmGet_cons, hq, ih hrest]

theorem mmInsert_eq_mmAppend (m : List (K × List T)) (key : K) (t : T) :
    mmInsert m key t = mmAppend m key [t] := by
  induction m with
  | nil => rfl
  | cons p rest ih =>
      obtain ⟨k, vs⟩ := p
      by_cases hk : k = key <;> simp [mmInsert, mmAppend, hk, ih]

theorem drain_into_nil (tgt : List (K × List T)) : drain_into [] tgt = tgt := rfl

theorem drain_into_cons (k : K) (vs : List T) (src tgt : List (K × List T)) :
    drain_into ((k, vs) :: src) tgt = drain_into src (mmAppend tgt k vs) := rfl

theorem mmwf_drain_into (src : List (K × List T)) {tgt : List (K × List T)}
    (h : MMWf tgt) : MMWf (drain_into src tgt) := by
  induction src generalizing tgt with
  | nil => exact h
  | cons p rest ih =>
      obtain ⟨k, vs⟩ := p
      rw [drain_into_cons]
      exact ih (mmwf_mmAppend h k vs)

theorem mmGet_drain_into {src tgt : List (K × List T)} (hs : MMWf src) (ht : MMWf tgt)
    (q : K) : mmGet (drain_into src tgt) q = mmGet tgt q ++ mmGet src q := by
  induction src generalizing tgt with
  | nil => simp [drain_into_nil, mmGet_nil]
  | cons p rest ih =>
      obtain ⟨k, vs⟩ := p
      obtain ⟨hknot, hrest⟩ := mmwf_cons hs
      rw [drain_into_cons, ih hrest (mmwf_mmAppend ht k vs), mmGet_mmAppend ht k vs q,
        mmGet_cons]
      by_cases hq : q = k
      · subst hq; simp
      · simp [hq, Ne.symm hq]

theorem mmwf_union {lhs rhs : List (K × List T)} (hl : MMWf lhs) (hr : MMWf rhs) :
    MMWf (union_multimap lhs rhs) := by
  unfold union_multimap
  split
  · exact mmwf_drain_into lhs hr
  · exact mmwf_drain_into rhs hl

theorem mmGet_union_perm {lhs rhs : List (K × List T)} (hl : MMWf lhs) (hr : MMWf rhs)
    (q : K) : (mmGet (union_multimap lhs rhs) q).Perm (mmGet lhs q ++ mmGet rhs q) := by
  unfold union_multimap
  split
  · rw [mmGet_drain_into hl hr q]
    exact List.perm_append_comm
  · rw [mmGet_drain_into hr hl q]

theorem mmwf_foldl_mmInsert (f : T → K) (items : List T) {acc : List (K × List T)}
    (h : MMWf acc) :
    MMWf (items.foldl (fun acc item => mmInsert acc (f item) item) acc) := by
  induction items generalizing acc with
  | nil => exact h
  | cons x xs ih =>
      rw [List.foldl_cons]
      exact ih (by rw [mmInsert_eq_mmAppend]; exact mmwf_mmAppend h _ _)

theorem mmwf_fold_multimap (f : T → K) (items : List T) : MMWf (fold_multimap f items) :=
  mmwf_foldl_mmInsert f items mmwf_nil

theorem mmGet_foldl_mmInsert (f : T → K) (items : List T) {acc : List (K × List T)}
    (h : MMWf acc) (q : K) :
    mmGet (items.foldl (fun acc item => mmInsert acc (f item) item) acc) q
      = mmGet acc q ++ items.filter (fun x => decide (f x = q)) := by
  induction items generalizing acc with
  | nil => simp
  | cons x xs ih =>
      rw [List.foldl_cons,
        ih (by rw [mmInsert_eq_mmAppend]; exact mmwf_mmAppend h _ _),
        mmInsert_eq_mmAppend, mmGet_mmAppend h _ _ q]
      by_cases hx : f x = q
      · simp [hx]
      · simp [hx, Ne.symm hx]

theorem mmGet_fold_multimap (f : T → K) (items : List T) (q : K) :
    mmGet (fold_multimap f items) q = items.filter (fun x => decide (f x = q)) := by
  have h := mmGet_foldl_mmInsert f items mmwf_nil q
  simpa [fold_multimap, mmGet_nil] using h

theorem mmGet_of_mem {m : List (K × List T)} (h : MMWf m) {k : K} {vs : List T}
    (hm : (k, vs) ∈ m) : mmGet m k = vs := by
  induction m with
  | nil => cases hm
  | cons p rest ih =>
      obtain ⟨k', vs'⟩ := p
      obtain ⟨hknot, hrest⟩ := mmwf_cons h
      rcases List.mem_cons.mp hm with heq | hmem
      · injection heq with h1 h2
        subst h1; subst h2
        rw [mmGet_cons, if_pos rfl, mmGet_eq_nil_of_not_mem hknot, List.append_nil]
      · have hkmem : k ∈ mmKeys rest := List.mem_map.mpr ⟨(k, vs), hmem, rfl⟩
        rw [mmGet_cons, if_neg (fun hkk : k' = k => hknot (hkk ▸ hkmem)), ih hrest hmem]

theorem flatten_map_snd_mmAppend (m : List (K × List T)) (key : K) (vs : List T) :
    (((mmAppend m key vs).map Prod.snd).flatten).Perm ((m.map Prod.snd).flatten ++ vs) := by
  induction m with
  | nil => simp [mmAppend]
  | cons p rest ih =>
      obtain ⟨k, vs'⟩ := p
      by_cases hk : k = key
      · subst hk
        simp only [show mmAppend ((k, vs') :: rest) k vs = (k, vs' ++ vs) :: rest by
            simp [mmAppend],
          List.map_cons, List.flatten_cons, List.append_assoc]
        exact List.Perm.append_left vs' List.perm_append_comm
      · simp only [show mmAppend ((k, vs') :: rest) key vs
              = (k, vs') :: mmAppend rest key vs by simp [mmAppend, hk],
          List.map_cons, List.flatten_cons, List.append_assoc]
        exact List.Perm.append_left vs' ih

theorem flatten_foldl_mmInsert_perm (f : T → K) (items : List T)
    (acc : List (K × List T)) :
    (((items.foldl (fun acc item => mmInsert acc (f item) item) acc).map Prod.snd).flatten).Perm
      ((acc.map Prod.snd).flatten ++ items) := by
  induction items generalizing acc with
  | nil => simp
  | cons x xs ih =>
      rw [List.foldl_cons]
      refine (ih (mmInsert acc (f x) x)).trans ?_
      rw [mmInsert_eq_mmAppend]
      refine (List.Perm.append_right xs (flatten_map_snd_mmAppend acc (f x) [x])).trans ?_
      simp [List.append_assoc]

theorem flatten_partition_perm (f : T → K) (items : List T) :
    ((partition_by_key f items).flatten).Perm items := by
  have h := flatten_foldl_mmInsert_perm f items []
  simpa [partition_by_key, fold_multimap] using h

theorem mem_items_of_mem_partition {f : T → K} {items : List T} {g : List T}
    (hg : g ∈ partition_by_key f items) {a : T} (ha : a ∈ g) : a ∈ items :=
  (flatten_partition_perm f items).mem_iff.mp
    (List.mem_flatten.mpr ⟨g, hg, ha⟩)

theorem mem_partition_eq_filter {f : T → K} {items : List T} {g : List T}
    (hg : g ∈ partition_by_key f items) :
    ∃ k, g = items.filter (fun x => decide (f x = k)) := by
  obtain ⟨p, hp, hsnd⟩ := List.mem_map.mp hg
  obtain ⟨k, vs⟩ := p
  have hget := mmGet_of_mem (mmwf_fold_multimap f items) hp
  rw [mmGet_fold_multimap f items k] at hget
  exact ⟨k, by rw [← hsnd]; exact hget.symm⟩

theorem key_eq_of_mem_partition {f : T → K} {items : List T} {g : List T}
    (hg : g ∈ partition_by_key f items) {a b : T} (ha : a ∈ g) (hb : b ∈ g) :
    f a = f b := by
  obtain ⟨k, rfl⟩ := mem_partition_eq_filter hg
  have h1 : decide (f a = k) = true := (List.mem_filter.mp ha).2
  have h2 : decide (f b = k) = true := (List.mem_filter.mp hb).2
  rw [of_decide_eq_true h1, of_decide_eq_true h2]

theorem partition_pairwise_ne_key (f : T → K) (items : List T) :
    (partition_by_key f items).Pairwise (fun g h => ∀ a ∈ g, ∀ b ∈ h, f a ≠ f b) := by
  have hwf := mmwf_fold_multimap f items
  have hok : ∀ p ∈ fold_multimap f items, ∀ x ∈ p.2, f x = p.1 := by
    intro p hp x hx
    obtain ⟨k, vs⟩ := p
    have hget := mmGet_of_mem hwf hp
    rw [mmGet_fold_multimap f items k] at hget
    have hx' : x ∈ items.filter (fun y => decide (f y = k)) := by
      rw [hget]; exact hx
    have hd : decide (f x = k) = true := (List.mem_filter.mp hx').2
    exact of_decide_eq_true hd
  have hpw : (fold_multimap f items).Pairwise (fun p q => p.1 ≠ q.1) := by
    unfold MMWf mmKeys at hwf
    rw [List.Nodup, List.pairwise_map] at hwf
    exact hwf
  unfold partition_by_key
  rw [List.pairwise_map]
  refine hpw.imp_of_mem ?_
  intro p q hp hq hne a ha b hb hab
  exact hne (by rw [← hok p hp a ha, ← hok q hq b hb, hab])

theorem partition_mem_ne_nil (f : T → K) (items : List T) :
    ∀ g ∈ partition_by_key f items, g ≠ [] := by
  intro g hg
  obtain ⟨p, hp, hsnd⟩ := List.mem_map.mp hg
  suffices hne : ∀ p ∈ fold_multimap f items, p.2 ≠ [] from hsnd ▸ hne p hp
  have haux : ∀ (xs : List T) (acc : List (K × List T)), (∀ p ∈ acc, p.2 ≠ []) →
      ∀ p ∈ xs.foldl (fun acc item => mmInsert acc (f item) item) acc, p.2 ≠ [] := by
    intro xs
    induction xs with
    | nil => intro acc hacc; exact hacc
    | cons x rest ih =>
        intro acc hacc
        rw [List.foldl_cons]
        refine ih _ ?_
        rw [mmInsert_eq_mmAppend]
        have hstep : ∀ (m : List (K × List T)), (∀ p ∈ m, p.2 ≠ []) →
            ∀ p ∈ mmAppend m (f x) [x], p.2 ≠ [] := by
          intro m
          induction m with
          | nil =>
              intro _ p hp
              rw [show mmAppend ([] : List (K × List T)) (f x) [x] = [(f x, [x])] from rfl]
                at hp
              rcases List.mem_cons.mp hp with rfl | h
              · simp
              · cases h
          | cons q rest' ih' =>
              obtain ⟨k', vs'⟩ := q
              intro hm p hp
              by_cases hk : k' = f x
              · rw [show mmAppend ((k', vs') :: rest') (f x) [x]
                      = (k', vs' ++ [x]) :: rest' by simp [mmAppend, hk]] at hp
                rcases List.mem_cons.mp hp with rfl | h
                · simp
                · exact hm p (List.mem_cons_of_mem _ h)
              · rw [show mmAppend ((k', vs') :: rest') (f x) [x]
                      = (k', vs') :: mmAppend rest' (f x) [x] by simp [mmAppend, hk]] at hp
                rcases List.mem_cons.mp hp with rfl | h
                · exact hm (k', vs') (List.mem_cons_self _ _)
                · exact ih' (fun r hr => hm r (List.mem_cons_of_mem _ hr)) p h
        exact hstep acc hacc
  exact haux items [] (by intro p hp; cases hp)

theorem same_group_of_same_key {f : T → K} {items : List T} {a b : T}
    {g h' : List T} (hg : g ∈ partition_by_key f items)
    (hh : h' ∈ partition_by_key f items) (ha : a ∈ g) (hb : b ∈ h')
    (hk : f a = f b) : g = h' := by
  by_contra hne
  have hsymm : Symmetric (fun g h : List T => ∀ a ∈ g, ∀ b ∈ h, f a ≠ f b) := by
    intro u v huv x hx y hy hxy
    exact huv y hy x hx hxy.symm
  exact (partition_pairwise_ne_key f items).forall hsymm hg hh hne a ha b hb hk

end MultimapTheory

/-! ### Generic list helpers -/

theorem countP_eq_one_of_disjoint {α : Type _} [DecidableEq α] {L : List (List α)}
    (hdisj : L.Pairwise (fun g h => ∀ a ∈ g, a ∉ h)) {x : α} (hx : x ∈ L.flatten) :
    L.countP (fun g => decide (x ∈ g)) = 1 := by
  induction L with
  | nil => simp at hx
  | cons g rest ih =>
      rw [List.pairwise_cons] at hdisj
      rw [List.flatten_cons, List.mem_append] at hx
      by_cases hxg : x ∈ g
      · rw [List.countP_cons]
        have hzero : rest.countP (fun h => decide (x ∈ h)) = 0 :=
          List.countP_eq_zero.mpr (fun h hh => by
            simpa using hdisj.1 h hh x hxg)
        simp [hxg, hzero]
      · have hx' : x ∈ rest.flatten := hx.resolve_left hxg
        rw [List.countP_cons]
        simp [hxg, ih hdisj.2 hx']

theorem one_lt_length_of_two_mem {α : Type _} {l : List α} {a b : α}
    (ha : a ∈ l) (hb : b ∈ l) (hne : a ≠ b) : 1 < l.length := by
  cases l with
  | nil => cases ha
  | cons x rest =>
      cases rest with
      | nil =>
          rw [List.mem_singleton] at ha hb
          exact absurd (ha.trans hb.symm) hne
      | cons y rest2 => simp only [List.length_cons]; omega

theorem exists_other_mem {α : Type _} {l : List α} (hnd : l.Nodup)
    (hlen : 1 < l.length) {x : α} (hx : x ∈ l) : ∃ q ∈ l, q ≠ x := by
  cases l with
  | nil => cases hx
  | cons a rest =>
      cases rest with
      | nil => simp at hlen
      | cons b rest2 =>
          by_cases hax : a = x
          · subst hax
            have hnotin := (List.nodup_cons.mp hnd).1
            refine ⟨b, by simp, fun hbx => hnotin ?_⟩
            rw [← hbx]
            exact List.mem_cons_self _ _
          · exact ⟨a, by simp, hax⟩

/-! ### The streaming hash loop computes the digest of the whole file -/

theorem hashReadLoop_eq (fuel : Nat) (absorbed remaining : List Nat)
    (hf : remaining.length ≤ fuel) :
    hashReadLoop fuel absorbed remaining = sha512 (absorbed ++ remaining) := by
  induction fuel generalizing absorbed remaining with
  | zero =>
      cases remaining with
      | nil => simp [hashReadLoop]
      | cons b rest => simp at hf
  | succ n ih =>
      cases remaining with
      | nil => simp [hashReadLoop]
      | cons b rest =>
          rw [show hashReadLoop (n + 1) absorbed (b :: rest)
              = hashReadLoop n (absorbed ++ (b :: rest).take 4096)
                  ((b :: rest).drop 4096) from rfl]
          rw [ih _ _ (by simp at hf ⊢; omega), List.append_assoc,
            List.take_append_drop]

theorem get_sha512_hash_eq (content : List Nat) :
    get_sha512_hash content = sha512 content := by
  unfold get_sha512_hash
  simpa using hashReadLoop_eq content.length [] content le_rfl

/-! ### Pipeline structure lemmas -/

section PipelineTheory

variable {P : Type _} [LinearOrder P]

theorem mem_raw_groups_iff {fs : P → List Nat} {files : List P} {g : List P} :
    g ∈ raw_groups fs files ↔
      ∃ G, (G ∈ partition_by_key (get_file_size fs) files ∧ 1 < G.length)
        ∧ g ∈ partition_by_key (content_key fs) G ∧ 1 < g.length := by
  unfold raw_groups
  rw [List.mem_flatten]
  constructor
  · rintro ⟨L, hL, hgL⟩
    rw [List.mem_map] at hL
    obtain ⟨G, hG, rfl⟩ := hL
    rw [List.mem_filter] at hG hgL
    exact ⟨G, ⟨hG.1, by simpa using hG.2⟩, hgL.1, by simpa using hgL.2⟩
  · rintro ⟨G, ⟨hG1, hG2⟩, hg1, hg2⟩
    refine ⟨(partition_by_key (content_key fs) G).filter (fun p => 1 < p.length), ?_, ?_⟩
    · rw [List.mem_map]
      exact ⟨G, List.mem_filter.mpr ⟨hG1, by simpa using hG2⟩, rfl⟩
    · exact List.mem_filter.mpr ⟨hg1, by simpa using hg2⟩

theorem mem_files_of_mem_raw {fs : P → List Nat} {files : List P} {g : List P}
    (hg : g ∈ raw_groups fs files) {a : P} (ha : a ∈ g) : a ∈ files := by
  obtain ⟨G, ⟨hG, _⟩, hg1, _⟩ := mem_raw_groups_iff.mp hg
  exact mem_items_of_mem_partition hG (mem_items_of_mem_partition hg1 ha)

theorem raw_groups_purity {fs : P → List Nat} {files : List P} {g : List P}
    (hg : g ∈ raw_groups fs files) {a b : P} (ha : a ∈ g) (hb : b ∈ g) :
    get_file_size fs a = get_file_size fs b ∧ content_key fs a = content_key fs b := by
  obtain ⟨G, ⟨hG, _⟩, hg1, _⟩ := mem_raw_groups_iff.mp hg
  exact ⟨key_eq_of_mem_partition hG (mem_items_of_mem_partition hg1 ha)
      (mem_items_of_mem_partition hg1 hb),
    key_eq_of_mem_partition hg1 ha hb⟩

theorem raw_groups_nodup {fs : P → List Nat} {files : List P} (h : files.Nodup) :
    ∀ g ∈ raw_groups fs files, g.Nodup := by
  intro g hg
  obtain ⟨G, ⟨hG, _⟩, hg1, _⟩ := mem_raw_groups_iff.mp hg
  have hflat : (partition_by_key (get_file_size fs) files).flatten.Nodup :=
    (flatten_partition_perm _ _).nodup_iff.mpr h
  have hGn : G.Nodup := (List.nodup_flatten.mp hflat).1 G hG
  have hflat2 : (partition_by_key (content_key fs) G).flatten.Nodup :=
    (flatten_partition_perm _ _).nodup_iff.mpr hGn
  exact (List.nodup_flatten.mp hflat2).1 g hg1

theorem raw_groups_pairwise_disjoint {fs : P → List Nat} {files : List P}
    (h : files.Nodup) : (raw_groups fs files).Pairwise List.Disjoint := by
  have hflat : (partition_by_key (get_file_size fs) files).flatten.Nodup :=
    (flatten_partition_perm _ _).nodup_iff.mpr h
  obtain ⟨hGnodup, hSdisj⟩ := List.nodup_flatten.mp hflat
  unfold raw_groups
  rw [List.pairwise_flatten]
  constructor
  · intro l hl
    rw [List.mem_map] at hl
    obtain ⟨G, hGf, rfl⟩ := hl
    have hGn : G.Nodup := hGnodup G (List.mem_filter.mp hGf).1
    have hfl2 : (partition_by_key (content_key fs) G).flatten.Nodup :=
      (flatten_partition_perm _ _).nodup_iff.mpr hGn
    exact ((List.nodup_flatten.mp hfl2).2).sublist (List.filter_sublist _)
  · rw [List.pairwise_map]
    refine (hSdisj.sublist (List.filter_sublist _)).imp ?_
    intro G1 G2 hdisj g hgm h' hhm a hag hah
    exact hdisj (mem_items_of_mem_partition (List.mem_filter.mp hgm).1 hag)
      (mem_items_of_mem_partition (List.mem_filter.mp hhm).1 hah)

theorem sortMaybe_perm (sort : Bool) (g : List P) :
    (if sort then g.insertionSort (· ≤ ·) else g).Perm g := by
  cases sort
  · simp
  · simpa using List.perm_insertionSort (· ≤ ·) g

theorem result_pairwise_disjoint {fs : P → List Nat} {files : List P}
    (h : files.Nodup) (sort : Bool) :
    (group_duplicate_files sort fs files).Pairwise (fun g h' => ∀ p ∈ g, p ∉ h') := by
  unfold group_duplicate_files
  rw [List.pairwise_map]
  refine (raw_groups_pairwise_disjoint h).imp ?_
  intro g h' hgh p hp hph
  exact hgh ((sortMaybe_perm sort g).mem_iff.mp hp) ((sortMaybe_perm sort h').mem_iff.mp hph)

end PipelineTheory

/-! ### Error propagation lemmas -/

theorem mapME_error {α β ε : Type _} {f : α → Except ε β} {l : List α}
    (h : ∃ x ∈ l, ∃ e, f x = .error e) : ∃ e, mapME f l = .error e := by
  induction l with
  | nil =>
      obtain ⟨x, hx, _⟩ := h
      cases hx
  | cons y ys ih =>
      obtain ⟨x, hx, e, hfe⟩ := h
      rcases List.mem_cons.mp hx with rfl | hxs
      · exact ⟨e, by simp [mapME, hfe]⟩
      · match hfy : f y with
        | .error e' => exact ⟨e', by simp [mapME, hfy]⟩
        | .ok v =>
            obtain ⟨e'', he''⟩ := ih ⟨x, hxs, e, hfe⟩
            exact ⟨e'', by simp [mapME, hfy, he'']⟩

theorem mapME_ok {α β ε : Type _} {f : α → Except ε β} {g : α → β} {l : List α}
    (h : ∀ x ∈ l, f x = .ok (g x)) : mapME f l = .ok (l.map g) := by
  induction l with
  | nil => rfl
  | cons y ys ih =>
      simp [mapME, h y (List.mem_cons_self _ _),
        ih (fun x hx => h x (List.mem_cons_of_mem _ hx))]

theorem mapME_id_ok {α ε : Type _} (l : List α) :
    mapME (ε := ε) id (l.map Except.ok) = .ok l := by
  induction l with
  | nil => rfl
  | cons y ys ih => simp [mapME, ih]

theorem partition_by_keyE_error {K T : Type _} [DecidableEq K]
    {get_key : T → Except String K} {items : List T}
    (h : ∃ i ∈ items, ∃ e, get_key i = .error e) :
    ∃ e, partition_by_keyE get_key items = .error e := by
  obtain ⟨i, hi, e, he⟩ := h
  obtain ⟨e', he'⟩ := mapME_error (f := fun item =>
      match get_key item with
      | .error e => .error e
      | .ok k => .ok (k, item)) ⟨i, hi, e, by simp [he]⟩
  exact ⟨e', by simp [partition_by_keyE, he']⟩

theorem partition_by_keyE_ok {K T : Type _} [DecidableEq K]
    {get_key : T → Except String K} {kf : T → K} {items : List T}
    (h : ∀ i ∈ items, get_key i = .ok (kf i)) :
    partition_by_keyE get_key items = .ok (partition_by_key kf items) := by
  have hm : mapME (fun item =>
      match get_key item with
      | .error e => .error e
      | .ok k => .ok (k, item)) items = .ok (items.map (fun i => (kf i, i))) :=
    mapME_ok (fun i hi => by simp [h i hi])
  simp [partition_by_keyE, hm, partition_by_key, fold_multimap, List.foldl_map]

/-! ### Claim theorems -/

/-- C5: for every regular file, `get_sha512_hash` reads the whole content
sequentially through the fixed 4096-byte buffer, with no early exit, and
returns exactly the SHA-512 digest of the entire byte content; since the
digest is a function of the content alone, two files with identical bytes
always receive identical digests. -/
theorem get_sha512_hash_is_sha512_of_content :
    ∀ content : List Nat, get_sha512_hash content = sha512 content :=
  get_sha512_hash_eq

/-- C3: for every (pure) key function and finite input sequence,
`partition_by_key` puts two items in the same group exactly when their keys
agree (members of one group share the key, members of distinct groups have
distinct keys), every input item lands in exactly one group (the groups
concatenate to a permutation of the input, and each input item is counted
in exactly one group), and the empty input yields the empty output. -/
theorem partition_by_key_spec {K T : Type} [DecidableEq K] [DecidableEq T]
    (get_key : T → K) (items : List T) :
    (∀ g ∈ partition_by_key get_key items, ∀ a ∈ g, ∀ b ∈ g, get_key a = get_key b)
    ∧ (partition_by_key get_key items).Pairwise
        (fun g h => ∀ a ∈ g, ∀ b ∈ h, get_key a ≠ get_key b)
    ∧ ((partition_by_key get_key items).flatten).Perm items
    ∧ (∀ x ∈ items, (partition_by_key get_key items).countP (fun g => decide (x ∈ g)) = 1)
    ∧ partition_by_key get_key ([] : List T) = [] := by
  refine ⟨?_, partition_pairwise_ne_key _ _, flatten_partition_perm _ _, ?_, rfl⟩
  · intro g hg a ha b hb
    exact key_eq_of_mem_partition hg ha hb
  · intro x hx
    have hdisj : (partition_by_key get_key items).Pairwise (fun g h => ∀ a ∈ g, a ∉ h) :=
      (partition_pairwise_ne_key get_key items).imp
        (fun hgh a ha hah => hgh a ha a hah rfl)
    exact countP_eq_one_of_disjoint hdisj
      ((flatten_partition_perm get_key items).mem_iff.mpr hx)

/-- Witness for C3 at a concrete key function and input. -/
theorem partition_by_key_spec_witness :
    (∀ g ∈ partition_by_key (fun n : Nat => n % 3) [0, 1, 2, 3, 4],
        ∀ a ∈ g, ∀ b ∈ g, a % 3 = b % 3)
    ∧ (partition_by_key (fun n : Nat => n % 3) [0, 1, 2, 3, 4]).Pairwise
        (fun g h => ∀ a ∈ g, ∀ b ∈ h, a % 3 ≠ b % 3)
    ∧ ((partition_by_key (fun n : Nat => n % 3) [0, 1, 2, 3, 4]).flatten).Perm [0, 1, 2, 3, 4]
    ∧ (∀ x ∈ [0, 1, 2, 3, 4],
        (partition_by_key (fun n : Nat => n % 3) [0, 1, 2, 3, 4]).countP
          (fun g => decide (x ∈ g)) = 1)
    ∧ partition_by_key (fun n : Nat => n % 3) ([] : List Nat) = [] :=
  partition_by_key_spec (fun n : Nat => n % 3) [0, 1, 2, 3, 4]

/-- C9: `partition_by_key` never emits an empty group: each vector is
created as a singleton and only ever grows. -/
theorem partition_by_key_no_empty_group {K T : Type} [DecidableEq K]
    (get_key : T → K) (items : List T) :
    ∀ g ∈ partition_by_key get_key items, g ≠ [] :=
  partition_mem_ne_nil get_key items

/-- Witness for C9: a concrete emitted group is nonempty. -/
theorem partition_by_key_no_empty_group_witness : ([1, 3] : List Nat) ≠ [] :=
  partition_by_key_no_empty_group (fun n : Nat => n % 2) [1, 2, 3] [1, 3] (by decide)

/-- C10: the empty mapping is a two-sided identity for `union_multimap`,
as required for the empty `HashMap` used as the identity of the parallel
reduce in `partition_by_key`. -/
theorem union_multimap_empty_identity {K T : Type} [DecidableEq K]
    (M : List (K × List T)) :
    union_multimap [] M = M ∧ union_multimap M [] = M := by
  constructor
  · rw [union_multimap, if_pos (by simp)]
    rfl
  · cases M with
    | nil => rfl
    | cons p rest =>
        rw [union_multimap, if_neg (by simp)]
        rfl

/-- C7: when the key counts differ, `union_multimap` always drains the
mapping with fewer distinct keys into the one with more, returning the
latter; the direction is decided by comparing the maps' key counts. -/
theorem union_multimap_drains_smaller {K T : Type} [DecidableEq K]
    (lhs rhs : List (K × List T)) :
    (lhs.length < rhs.length → union_multimap lhs rhs = drain_into lhs rhs)
    ∧ (rhs.length < lhs.length → union_multimap lhs rhs = drain_into rhs lhs) := by
  constructor
  · intro h
    rw [union_multimap, if_pos (Nat.le_of_lt h)]
  · intro h
    rw [union_multimap, if_neg (by omega)]

/-- Witness for C7 on concrete mappings of one and two keys. -/
theorem union_multimap_drains_smaller_witness :
    ((1 : Nat) < 2
      ∧ union_multimap [(0, [10])] [(1, [11]), (2, [12])]
          = drain_into [(0, [10])] [(1, [11]), (2, [12])])
    ∧ ((1 : Nat) < 2
      ∧ union_multimap [(1, [11]), (2, [12])] [(0, [10])]
          = drain_into [(0, [10])] [(1, [11]), (2, [12])]) :=
  ⟨⟨by decide,
    (union_multimap_drains_smaller [(0, [10])] [(1, [11]), (2, [12])]).1 (by decide)⟩,
   ⟨by decide,
    (union_multimap_drains_smaller [(1, [11]), (2, [12])] [(0, [10])]).2 (by decide)⟩⟩

/-- C4: for well-formed mappings (distinct keys, as in any `HashMap`),
`union_multimap` preserves per-key item multiplicities (every item of
either side occurs in the union under its key exactly as often as before,
hence exactly once for disjoint item sets), and it is commutative and
pairwise associative up to the order of items within each per-key list. -/
theorem union_multimap_merge_correct {K T : Type} [DecidableEq K] [DecidableEq T]
    (A B C : List (K × List T)) (hA : MMWf A) (hB : MMWf B) (hC : MMWf C) :
    (∀ q x, (mmGet (union_multimap A B) q).count x
        = (mmGet A q).count x + (mmGet B q).count x)
    ∧ (∀ q, (mmGet (union_multimap A B) q).Perm (mmGet (union_multimap B A) q))
    ∧ (∀ q, (mmGet (union_multimap (union_multimap A B) C) q).Perm
        (mmGet (union_multimap A (union_multimap B C)) q)) := by
  refine ⟨?_, ?_, ?_⟩
  · intro q x
    rw [(mmGet_union_perm hA hB q).count_eq, List.count_append]
  · intro q
    exact ((mmGet_union_perm hA hB q).trans List.perm_append_comm).trans
      (mmGet_union_perm hB hA q).symm
  · intro q
    have h1 : (mmGet (union_multimap (union_multimap A B) C) q).Perm
        ((mmGet A q ++ mmGet B q) ++ mmGet C q) :=
      (mmGet_union_perm (mmwf_union hA hB) hC q).trans
        (List.Perm.append_right _ (mmGet_union_perm hA hB q))
    have h2 : (mmGet (union_multimap A (union_multimap B C)) q).Perm
        (mmGet A q ++ (mmGet B q ++ mmGet C q)) :=
      (mmGet_union_perm hA (mmwf_union hB hC) q).trans
        (List.Perm.append_left _ (mmGet_union_perm hB hC q))
    exact (h1.trans (by rw [List.append_assoc])).trans h2.symm

/-- C1: every group emitted by `group_duplicate_files` is pure — all its
members have equal file size and equal SHA-512 content checksum — and for
distinct enumerated paths no path occurs in two distinct emitted groups. -/
theorem group_duplicate_files_purity {P : Type} [LinearOrder P] (sort : Bool)
    (fs : P → List Nat) (files : List P) (hnd : files.Nodup) :
    (∀ g ∈ group_duplicate_files sort fs files, ∀ a ∈ g, ∀ b ∈ g,
        (fs a).length = (fs b).length ∧ sha512 (fs a) = sha512 (fs b))
    ∧ (group_duplicate_files sort fs files).Pairwise (fun g h => ∀ p ∈ g, p ∉ h) := by
  constructor
  · intro g hg a ha b hb
    unfold group_duplicate_files at hg
    rw [List.mem_map] at hg
    obtain ⟨g₀, hg₀, rfl⟩ := hg
    have ha' : a ∈ g₀ := (sortMaybe_perm sort g₀).mem_iff.mp ha
    have hb' : b ∈ g₀ := (sortMaybe_perm sort g₀).mem_iff.mp hb
    obtain ⟨hsize, hhash⟩ := raw_groups_purity hg₀ ha' hb'
    refine ⟨hsize, ?_⟩
    rw [content_key, content_key, get_sha512_hash_eq, get_sha512_hash_eq] at hhash
    exact hhash
  · exact result_pairwise_disjoint hnd sort

/-- Witness for C1 on two empty files. -/
theorem group_duplicate_files_purity_witness :
    ([1, 2] : List Nat).Nodup
    ∧ ((∀ g ∈ group_duplicate_files false (fun _ : Nat => ([] : List Nat)) [1, 2],
          ∀ a ∈ g, ∀ b ∈ g, (([] : List Nat)).length = (([] : List Nat)).length
            ∧ sha512 [] = sha512 [])
      ∧ (group_duplicate_files false (fun _ : Nat => ([] : List Nat)) [1, 2]).Pairwise
          (fun g h => ∀ p ∈ g, p ∉ h)) :=
  ⟨by decide,
    group_duplicate_files_purity false (fun _ : Nat => ([] : List Nat)) [1, 2] (by decide)⟩

/-- C8: with `sort = true` every emitted group's path list is sorted; with
`sort = false` the groups are exactly those produced by the two partition
stages, in that order. -/
theorem group_duplicate_files_sorting {P : Type} [LinearOrder P]
    (fs : P → List Nat) (files : List P) :
    (∀ g ∈ group_duplicate_files true fs files, g.Sorted (· ≤ ·))
    ∧ group_duplicate_files false fs files = raw_groups fs files := by
  constructor
  · intro g hg
    unfold group_duplicate_files at hg
    rw [List.mem_map] at hg
    obtain ⟨g₀, _, rfl⟩ := hg
    simpa using List.sorted_insertionSort (· ≤ ·) g₀
  · unfold group_duplicate_files
    simp

set_option maxRecDepth 20000 in
/-- Witness for C8: a concrete emitted group is sorted. -/
theorem group_duplicate_files_sorting_witness : ([1, 2] : List Nat).Sorted (· ≤ ·) :=
  (group_duplicate_files_sorting (fun _ : Nat => ([] : List Nat)) [2, 1]).1 [1, 2]
    (by decide)

/-- C2: an enumerated file appears in exactly one emitted group when some
other enumerated file matches it in both stages (equal size and equal
checksum — "at least one sibling in both stages"), and in zero groups
otherwise. -/
theorem group_duplicate_files_coverage {P : Type} [LinearOrder P] (sort : Bool)
    (fs : P → List Nat) (files : List P) (hnd : files.Nodup)
    (x : P) (hx : x ∈ files) :
    (group_duplicate_files sort fs files).countP (fun g => decide (x ∈ g))
      = if ∃ q ∈ files, q ≠ x ∧ get_file_size fs q = get_file_size fs x
            ∧ content_key fs q = content_key fs x then 1 else 0 := by
  have hdisj : (group_duplicate_files sort fs files).Pairwise (fun g h => ∀ p ∈ g, p ∉ h) :=
    result_pairwise_disjoint hnd sort
  by_cases hsib : ∃ q ∈ files, q ≠ x ∧ get_file_size fs q = get_file_size fs x
      ∧ content_key fs q = content_key fs x
  · rw [if_pos hsib]
    obtain ⟨q, hq, hqx, hsize, hhash⟩ := hsib
    have hxflat : x ∈ (partition_by_key (get_file_size fs) files).flatten :=
      (flatten_partition_perm _ _).mem_iff.mpr hx
    obtain ⟨G, hG, hxG⟩ := List.mem_flatten.mp hxflat
    have hqflat : q ∈ (partition_by_key (get_file_size fs) files).flatten :=
      (flatten_partition_perm _ _).mem_iff.mpr hq
    obtain ⟨G', hG', hqG'⟩ := List.mem_flatten.mp hqflat
    have hGG : G' = G := same_group_of_same_key hG' hG hqG' hxG hsize
    have hqG : q ∈ G := hGG ▸ hqG'
    have hGlen : 1 < G.length := one_lt_length_of_two_mem hqG hxG hqx
    have hxflat2 : x ∈ (partition_by_key (content_key fs) G).flatten :=
      (flatten_partition_perm _ _).mem_iff.mpr hxG
    obtain ⟨g, hgmem, hxg⟩ := List.mem_flatten.mp hxflat2
    have hqflat2 : q ∈ (partition_by_key (content_key fs) G).flatten :=
      (flatten_partition_perm _ _).mem_iff.mpr hqG
    obtain ⟨g', hg'mem, hqg'⟩ := List.mem_flatten.mp hqflat2
    have hgg : g' = g := same_group_of_same_key hg'mem hgmem hqg' hxg hhash
    have hqg : q ∈ g := hgg ▸ hqg'
    have hglen : 1 < g.length := one_lt_length_of_two_mem hqg hxg hqx
    have hgraw : g ∈ raw_groups fs files :=
      mem_raw_groups_iff.mpr ⟨G, ⟨hG, hGlen⟩, hgmem, hglen⟩
    have hxres : x ∈ (group_duplicate_files sort fs files).flatten := by
      rw [List.mem_flatten]
      refine ⟨if sort then g.insertionSort (· ≤ ·) else g, ?_, ?_⟩
      · unfold group_duplicate_files
        rw [List.mem_map]
        exact ⟨g, hgraw, rfl⟩
      · exact (sortMaybe_perm sort g).mem_iff.mpr hxg
    exact countP_eq_one_of_disjoint hdisj hxres
  · rw [if_neg hsib]
    refine List.countP_eq_zero.mpr ?_
    intro g hgres
    simp only [decide_eq_true_eq]
    intro hxg'
    unfold group_duplicate_files at hgres
    rw [List.mem_map] at hgres
    obtain ⟨g₀, hg₀, rfl⟩ := hgres
    have hxg : x ∈ g₀ := (sortMaybe_perm sort g₀).mem_iff.mp hxg'
    have hnodup : g₀.Nodup := raw_groups_nodup hnd g₀ hg₀
    obtain ⟨G, ⟨hG, hGlen⟩, hg1, hglen⟩ := mem_raw_groups_iff.mp hg₀
    obtain ⟨q, hqg, hqx⟩ := exists_other_mem hnodup hglen hxg
    refine hsib ⟨q, ?_, hqx, ?_, ?_⟩
    · exact mem_items_of_mem_partition hG (mem_items_of_mem_partition hg1 hqg)
    · exact key_eq_of_mem_partition hG (mem_items_of_mem_partition hg1 hqg)
        (mem_items_of_mem_partition hg1 hxg)
    · exact key_eq_of_mem_partition hg1 hqg hxg

set_option maxRecDepth 20000 in
/-- Witness for C2: with two empty files and one distinct file, the empty
files land in exactly one group. -/
theorem group_duplicate_files_coverage_witness :
    ([1, 2, 3] : List Nat).Nodup ∧ (1 : Nat) ∈ [1, 2, 3]
    ∧ (group_duplicate_files false (fun p : Nat => if p = 3 then [7] else []) [1, 2, 3]).countP
        (fun g => decide ((1 : Nat) ∈ g))
      = if ∃ q ∈ ([1, 2, 3] : List Nat), q ≠ 1
            ∧ get_file_size (fun p : Nat => if p = 3 then [7] else []) q
              = get_file_size (fun p : Nat => if p = 3 then [7] else []) 1
            ∧ content_key (fun p : Nat => if p = 3 then [7] else []) q
              = content_key (fun p : Nat => if p = 3 then [7] else []) 1 then 1 else 0 :=
  ⟨by decide, by decide,
    group_duplicate_files_coverage false (fun p : Nat => if p = 3 then [7] else [])
      [1, 2, 3] (by decide) 1 (by decide)⟩

/-- C6: every traversal error, metadata (size-lookup) error, and file-read
error encountered by the pipeline is fatal: the run aborts with the error
(the embedded image of the Rust panic and non-zero exit) and produces no
duplicate-group output, never skipping the offending file or retrying;
conversely an error-free run produces exactly the pure pipeline's groups. -/
theorem group_duplicate_filesE_fail_fast {P : Type} [LinearOrder P] (sort : Bool)
    (entries : List (Except String P)) (metadata : P → Except String Nat)
    (readFile : P → Except String (List Nat)) (fs : P → List Nat) (files : List P) :
    ((∃ ent ∈ entries, ∃ e, ent = Except.error e) →
      ∃ e, group_duplicate_filesE sort entries metadata readFile = .error e)
    ∧ (entries = files.map Except.ok →
      (∃ p ∈ files, ∃ e, metadata p = .error e) →
      ∃ e, group_duplicate_filesE sort entries metadata readFile = .error e)
    ∧ (entries = files.map Except.ok →
      (∀ p, metadata p = .ok (get_file_size fs p)) →
      (∃ G ∈ (partition_by_key (get_file_size fs) files).filter (fun p => 1 < p.length),
          ∃ p ∈ G, ∃ e, readFile p = .error e) →
      ∃ e, group_duplicate_filesE sort entries metadata readFile = .error e)
    ∧ (entries = files.map Except.ok →
      (∀ p, metadata p = .ok (get_file_size fs p)) →
      (∀ p, readFile p = .ok (fs p)) →
      group_duplicate_filesE sort entries metadata readFile
        = .ok (group_duplicate_files sort fs files)) := by
  refine ⟨?_, ?_, ?_, ?_⟩
  · intro h
    obtain ⟨ent, hent, e, he⟩ := h
    obtain ⟨e', he'⟩ := mapME_error (f := id) ⟨ent, hent, e, by simp [he]⟩
    exact ⟨e', by simp [group_duplicate_filesE, he']⟩
  · intro hent h
    subst hent
    obtain ⟨e, he⟩ := partition_by_keyE_error h
    exact ⟨e, by simp [group_duplicate_filesE, mapME_id_ok, he]⟩
  · intro hent hmeta hfail
    subst hent
    have hsg : partition_by_keyE metadata files
        = .ok (partition_by_key (get_file_size fs) files) :=
      partition_by_keyE_ok (fun p _ => hmeta p)
    obtain ⟨G, hG, p, hp, e, he⟩ := hfail
    have hck : ∃ i ∈ G, ∃ e0, content_keyE readFile i = .error e0 :=
      ⟨p, hp, e, by simp [content_keyE, he]⟩
    obtain ⟨e', he'⟩ := partition_by_keyE_error hck
    obtain ⟨e'', he''⟩ := mapME_error (f := hash_stageE readFile)
      ⟨G, hG, e', by simp [hash_stageE, he']⟩
    exact ⟨e'', by simp only [group_duplicate_filesE, mapME_id_ok, hsg, he'']⟩
  · intro hent hmeta hread
    subst hent
    have hsg : partition_by_keyE metadata files
        = .ok (partition_by_key (get_file_size fs) files) :=
      partition_by_keyE_ok (fun p _ => hmeta p)
    have hinner : ∀ G : List P, hash_stageE readFile G
        = .ok ((partition_by_key (content_key fs) G).filter (fun q => 1 < q.length)) := by
      intro G
      have hok : ∀ i ∈ G, content_keyE readFile i = .ok (content_key fs i) :=
        fun p _ => by simp [content_keyE, hread p, content_key]
      rw [hash_stageE, partition_by_keyE_ok hok]
    have hmap : mapME (hash_stageE readFile)
        ((partition_by_key (get_file_size fs) files).filter (fun p => 1 < p.length))
        = .ok (((partition_by_key (get_file_size fs) files).filter
            (fun p => 1 < p.length)).map
          (fun G => (partition_by_key (content_key fs) G).filter
            (fun q => 1 < q.length))) :=
      mapME_ok (fun G _ => hinner G)
    simp only [group_duplicate_filesE, mapME_id_ok, hsg, hmap]
    rfl

/-- Witness for C6: a failing traversal entry aborts the whole run. -/
theorem group_duplicate_filesE_fail_fast_witness :
    ∃ e, group_duplicate_filesE false [Except.error "denied", Except.ok (1 : Nat)]
        (fun _ => Except.ok 0) (fun _ => Except.ok []) = Except.error e :=
  (group_duplicate_filesE_fail_fast false [Except.error "denied", Except.ok (1 : Nat)]
      (fun _ => Except.ok 0) (fun _ => Except.ok []) (fun _ => []) []).1
    ⟨Except.error "denied", by simp, "denied", rfl⟩

/-- Witness for C4 on concrete well-formed mappings. -/
theorem union_multimap_merge_correct_witness :
    MMWf [((0 : Nat), [(10 : Nat)])] ∧ MMWf [((1 : Nat), [(11 : Nat)])]
    ∧ MMWf [((0 : Nat), [(12 : Nat)])]
    ∧ ((∀ q x, (mmGet (union_multimap [(0, [10])] [(1, [11])]) q).count x
          = (mmGet [(0, [10])] q).count x + (mmGet [(1, [11])] q).count x)
      ∧ (∀ q, (mmGet (union_multimap [(0, [10])] [(1, [11])]) q).Perm
          (mmGet (union_multimap [(1, [11])] [(0, [10])]) q))
      ∧ (∀ q, (mmGet (union_multimap (union_multimap [(0, [10])] [(1, [11])])
            [(0, [12])]) q).Perm
          (mmGet (union_multimap [(0, [10])]
            (union_multimap [(1, [11])] [(0, [12])])) q))) :=
  ⟨by decide, by decide, by decide,
    union_multimap_merge_correct [(0, [10])] [(1, [11])] [(0, [12])]
      (by decide) (by decide) (by decide)⟩

end Fdup
